import Mathlib

/-!
Shallow embedding of the `ringb` crate (`src/lib.rs`): a fixed-capacity
circular buffer `RingB<T>` with discard-oldest (`enqueue`) and reject
(`enqueue_or_overflow`) overflow policies and a single-element `dequeue`.

Rust `Vec<Option<T>>` is modelled as `List (Option T)`; `usize` as `Nat`.
Operations that can panic in Rust (indexing out of bounds, `% 0`) return
`Option`: `none` models the panic, `some` the normal result.  Mutating
methods return the updated buffer explicitly.
-/

namespace RingbSpec

/-- The `OverflowError` unit struct of the crate (`pub struct OverflowError;`).
It carries no payload. -/
structure OverflowError : Type where
deriving DecidableEq

/-- The `RingB<T>` struct: head, tail, size, capacity and the backing
store `items: Vec<Option<T>>`. -/
structure RingB (T : Type) : Type where
  head : Nat
  tail : Nat
  size : Nat
  capacity : Nat
  items : List (Option T)
deriving DecidableEq

/-- `pub const DEFAULT_BUFFER_CAPACITY: usize = 16;` -/
def DEFAULT_BUFFER_CAPACITY : Nat := 16

/-- `RingB::with_capacity(capacity)`: a buffer of the given capacity with
all slots `None` and `head = tail = size = 0`. -/
def RingB.with_capacity (T : Type) (capacity : Nat) : RingB T :=
  { head := 0, tail := 0, size := 0, capacity := capacity,
    items := List.replicate capacity none }

/-- `RingB::new()`: a buffer of the default capacity. -/
def RingB.new (T : Type) : RingB T :=
  RingB.with_capacity T DEFAULT_BUFFER_CAPACITY

/-- `is_empty(&self) -> bool`: `self.size == 0`. -/
def RingB.is_empty {T : Type} (b : RingB T) : Bool :=
  b.size == 0

/-- `is_full(&self) -> bool`: `self.size == self.capacity`. -/
def RingB.is_full {T : Type} (b : RingB T) : Bool :=
  b.size == b.capacity

/-- `dequeue(&mut self) -> Option<T>`.  Returns the dequeued value (as in
the source, the content `item` of slot `head`, with the slot reset to
`None`) together with the updated buffer.  The outer `Option` models a
panic: indexing `self.items[self.head]` out of bounds, or `% 0` when
`capacity = 0`; neither occurs on a buffer reachable from a constructor. -/
def RingB.dequeue {T : Type} (b : RingB T) : Option (Option T × RingB T) :=
  if b.is_empty then some (none, b)
  else
    match b.items[b.head]? with
    | none => none
    | some item =>
      if b.capacity = 0 then none
      else
        some (item,
          { b with items := b.items.set b.head none,
                   head := (b.head + 1) % b.capacity,
                   size := b.size - 1 })

/-- `enqueue(&mut self, item: T)` — discard-oldest policy.  If the buffer
is full it first dequeues (discarding the result), then stores `item` in
slot `tail`, advances `tail` modulo capacity and increments `size`.  The
`Option` models a panic (out-of-bounds slot write `self.items[self.tail]`,
or `% 0`), which happens exactly in the zero-capacity / malformed cases. -/
def RingB.enqueue {T : Type} (b : RingB T) (item : T) : Option (RingB T) :=
  let go : RingB T → Option (RingB T) := fun c =>
    if c.tail < c.items.length then
      if c.capacity = 0 then none
      else
        some { c with items := c.items.set c.tail (some item),
                      tail := (c.tail + 1) % c.capacity,
                      size := c.size + 1 }
    else none
  if b.is_full then
    match b.dequeue with
    | none => none
    | some (_, b1) => go b1
  else go b

/-- `enqueue_or_overflow(&mut self, item: T) -> Result<(), OverflowError>`
— reject policy.  On a full buffer it returns `Err(OverflowError)` before
touching any state; otherwise it performs the same slot write / tail
advance / size increment as `enqueue`.  The outer `Option` models a panic
as above. -/
def RingB.enqueue_or_overflow {T : Type} (b : RingB T) (item : T) :
    Option (Except OverflowError Unit × RingB T) :=
  if b.is_full then some (Except.error ⟨⟩, b)
  else
    if b.tail < b.items.length then
      if b.capacity = 0 then none
      else
        some (Except.ok (),
          { b with items := b.items.set b.tail (some item),
                   tail := (b.tail + 1) % b.capacity,
                   size := b.size + 1 })
    else none

/-- One API call, for reasoning about arbitrary operation sequences. -/
inductive Op (T : Type) : Type where
  | enq (x : T) : Op T
  | enqOrOverflow (x : T) : Op T
  | deq : Op T
deriving DecidableEq

/-- Apply one operation, keeping only the resulting buffer state
(`none` models a panic). -/
def RingB.applyOp {T : Type} (b : RingB T) : Op T → Option (RingB T)
  | Op.enq x => b.enqueue x
  | Op.enqOrOverflow x => (b.enqueue_or_overflow x).map Prod.snd
  | Op.deq => b.dequeue.map Prod.snd

/-- Apply a sequence of operations left to right. -/
def RingB.applyOps {T : Type} (b : RingB T) : List (Op T) → Option (RingB T)
  | [] => some b
  | op :: ops =>
    match b.applyOp op with
    | none => none
    | some b1 => b1.applyOps ops

/-- Enqueue a list of items left to right with the discard-oldest `enqueue`. -/
def RingB.enqueueAll {T : Type} (b : RingB T) : List T → Option (RingB T)
  | [] => some b
  | x :: xs =>
    match b.enqueue x with
    | none => none
    | some b1 => b1.enqueueAll xs

/-- Dequeue `n` times, collecting the returned values in order. -/
def RingB.dequeueN {T : Type} (b : RingB T) : Nat → Option (List (Option T) × RingB T)
  | 0 => some ([], b)
  | n + 1 =>
    match b.dequeue with
    | none => none
    | some (o, b1) =>
      match b1.dequeueN n with
      | none => none
      | some (os, b2) => some (o :: os, b2)

/-- Well-formedness of a buffer state: the backing store has exactly
`capacity` slots, both indices are in bounds and `size` is within
capacity.  Every buffer reachable from a constructor with positive
capacity satisfies it. -/
def RingB.Wf {T : Type} (b : RingB T) : Prop :=
  b.items.length = b.capacity ∧ b.head < b.capacity ∧
    b.tail < b.capacity ∧ b.size ≤ b.capacity

/-- The weak invariant behind the size-bounds claim: `size` within
capacity and a backing store of exactly `capacity` slots.  Unlike
`RingB.Wf` it also holds for a zero-capacity buffer. -/
def RingB.SizeInv {T : Type} (b : RingB T) : Prop :=
  b.size ≤ b.capacity ∧ b.items.length = b.capacity

/-- Representation predicate: buffer `b` holds exactly the elements of
`l`, oldest first, in the cyclic slot range starting at `head`. -/
structure RingB.Models {T : Type} (b : RingB T) (l : List T) : Prop where
  hlen : b.items.length = b.capacity
  hsize : b.size ≤ b.capacity
  hl : l.length = b.size
  hhead : b.head < b.capacity ∨ (b.capacity = 0 ∧ b.head = 0)
  htail : b.tail = (b.head + b.size) % b.capacity
  hslot : ∀ i, i < b.size → b.items[(b.head + i) % b.capacity]? = some l[i]?

/-- Reduction of one modular step when the argument is below twice the modulus. -/
lemma mod_double {x cap : Nat} (h : x < 2 * cap) :
    x % cap = if x < cap then x else x - cap := by
  split
  · exact Nat.mod_eq_of_lt (by omega)
  · rw [Nat.mod_eq_sub_mod (by omega), Nat.mod_eq_of_lt (by omega)]

/-- The cyclic slot index map `i ↦ (head + i) % cap` is injective on `[0, cap)`. -/
lemma ring_index_inj {head i j cap : Nat} (hh : head < cap) (hi : i < cap)
    (hj : j < cap) (h : (head + i) % cap = (head + j) % cap) : i = j := by
  rw [mod_double (by omega), mod_double (by omega)] at h
  split_ifs at h <;> omega

/-- A freshly constructed buffer represents the empty sequence. -/
lemma models_with_capacity (T : Type) (n : Nat) :
    (RingB.with_capacity T n).Models [] :=
  { hlen := by simp [RingB.with_capacity]
    hsize := by simp [RingB.with_capacity]
    hl := rfl
    hhead := by simp [RingB.with_capacity]; omega
    htail := by simp [RingB.with_capacity]
    hslot := by intro i hi; simp [RingB.with_capacity] at hi }

/-- On a nonempty buffer, `dequeue` returns the oldest element and advances
`head`, exactly as in the source. -/
lemma dequeue_cons {T : Type} {b : RingB T} {x : T} {l : List T}
    (h : b.Models (x :: l)) :
    b.dequeue = some (some x,
      { b with items := b.items.set b.head none,
               head := (b.head + 1) % b.capacity,
               size := b.size - 1 }) := by
  have hsz : 0 < b.size := by
    have hhl := h.hl
    simp only [List.length_cons] at hhl
    omega
  have hcap : 0 < b.capacity := lt_of_lt_of_le hsz h.hsize
  have hh : b.head < b.capacity := by
    rcases h.hhead with h1 | h1
    · exact h1
    · omega
  have hslot0 := h.hslot 0 hsz
  rw [Nat.add_zero, Nat.mod_eq_of_lt hh] at hslot0
  have hne : b.is_empty = false := by
    simp [RingB.is_empty]
    omega
  simp only [RingB.dequeue, hne, Bool.false_eq_true, if_false, hslot0]
  simp [Nat.pos_iff_ne_zero.mp hcap]

/-- `dequeue` on a nonempty buffer preserves the representation, dropping
the oldest element. -/
lemma models_dequeue {T : Type} {b : RingB T} {x : T} {l : List T}
    (h : b.Models (x :: l)) :
    RingB.Models
      { b with items := b.items.set b.head none,
               head := (b.head + 1) % b.capacity,
               size := b.size - 1 } l := by
  have hsz : 0 < b.size := by
    have hhl := h.hl
    simp only [List.length_cons] at hhl
    omega
  have hcap : 0 < b.capacity := lt_of_lt_of_le hsz h.hsize
  have hh : b.head < b.capacity := by
    rcases h.hhead with h1 | h1
    · exact h1
    · omega
  have hll : l.length + 1 = b.size := by
    have hhl := h.hl
    simpa using hhl
  refine ⟨?_, ?_, ?_, ?_, ?_, ?_⟩
  · show (b.items.set b.head none).length = b.capacity
    simpa using h.hlen
  · show b.size - 1 ≤ b.capacity
    have := h.hsize
    omega
  · show l.length = b.size - 1
    omega
  · exact Or.inl (Nat.mod_lt _ hcap)
  · show b.tail = ((b.head + 1) % b.capacity + (b.size - 1)) % b.capacity
    rw [Nat.mod_add_mod]
    have harg : b.head + 1 + (b.size - 1) = b.head + b.size := by omega
    rw [harg]
    exact h.htail
  · show ∀ i, i < b.size - 1 →
      (b.items.set b.head none)[((b.head + 1) % b.capacity + i) % b.capacity]?
        = some l[i]?
    intro i hi
    have hsc := h.hsize
    have hi1 : 1 + i < b.size := by omega
    rw [Nat.mod_add_mod]
    have harg : b.head + 1 + i = b.head + (1 + i) := by omega
    rw [harg]
    have hne2 : b.head ≠ (b.head + (1 + i)) % b.capacity := by
      intro hcontra
      have h0 : (b.head + 0) % b.capacity = b.head := by
        simpa using Nat.mod_eq_of_lt hh
      have := ring_index_inj hh (by omega : (0:Nat) < b.capacity)
        (by omega : 1 + i < b.capacity) (by rw [h0, ← hcontra])
      omega
    rw [List.getElem?_set_ne hne2]
    have := h.hslot (1 + i) hi1
    rw [this]
    congr 1
    have : 1 + i = i + 1 := by omega
    rw [this, List.getElem?_cons_succ]

/-- On a non-full buffer with in-bounds `tail`, `enqueue` takes the
non-eviction path: write into slot `tail`, advance `tail`, increment `size`. -/
lemma enqueue_not_full {T : Type} {b : RingB T} (x : T)
    (hlen : b.items.length = b.capacity) (htail : b.tail < b.capacity)
    (hnf : b.size ≠ b.capacity) :
    b.enqueue x = some
      { b with items := b.items.set b.tail (some x),
               tail := (b.tail + 1) % b.capacity,
               size := b.size + 1 } := by
  have hfull : b.is_full = false := by
    simp [RingB.is_full]
    omega
  have hcap : ¬ b.capacity = 0 := by omega
  have ht : b.tail < b.items.length := by omega
  simp only [RingB.enqueue, hfull, Bool.false_eq_true, if_false]
  simp [ht, hcap]

/-- On a non-full buffer with in-bounds `tail`, `enqueue_or_overflow`
succeeds and performs the same write/advance/increment as `enqueue`. -/
lemma enqueue_or_overflow_not_full {T : Type} {b : RingB T} (x : T)
    (hlen : b.items.length = b.capacity) (htail : b.tail < b.capacity)
    (hnf : b.size ≠ b.capacity) :
    b.enqueue_or_overflow x = some (Except.ok (),
      { b with items := b.items.set b.tail (some x),
               tail := (b.tail + 1) % b.capacity,
               size := b.size + 1 }) := by
  have hfull : b.is_full = false := by
    simp [RingB.is_full]
    omega
  have hcap : ¬ b.capacity = 0 := by omega
  have ht : b.tail < b.items.length := by omega
  simp only [RingB.enqueue_or_overflow, hfull, Bool.false_eq_true, if_false]
  simp [ht, hcap]

/-- The non-eviction enqueue path preserves the representation, appending
the new element at the logical end. -/
lemma models_enqueue {T : Type} {b : RingB T} {l : List T} (x : T)
    (h : b.Models l) (hnf : b.size < b.capacity) :
    RingB.Models
      { b with items := b.items.set b.tail (some x),
               tail := (b.tail + 1) % b.capacity,
               size := b.size + 1 } (l ++ [x]) := by
  have hcap : 0 < b.capacity := by omega
  have hh : b.head < b.capacity := by
    rcases h.hhead with h1 | h1
    · exact h1
    · omega
  have hll := h.hl
  refine ⟨?_, ?_, ?_, ?_, ?_, ?_⟩
  · show (b.items.set b.tail (some x)).length = b.capacity
    simpa using h.hlen
  · show b.size + 1 ≤ b.capacity
    omega
  · show (l ++ [x]).length = b.size + 1
    simp [hll]
  · exact Or.inl hh
  · show (b.tail + 1) % b.capacity = (b.head + (b.size + 1)) % b.capacity
    rw [h.htail, Nat.mod_add_mod, Nat.add_assoc]
  · show ∀ i, i < b.size + 1 →
      (b.items.set b.tail (some x))[(b.head + i) % b.capacity]? = some (l ++ [x])[i]?
    intro i hi
    rcases Nat.lt_or_ge i b.size with hlt | hge
    · have hne : b.tail ≠ (b.head + i) % b.capacity := by
        intro hcontra
        have := ring_index_inj hh (by omega : b.size < b.capacity)
          (by omega : i < b.capacity) (by rw [← h.htail, ← hcontra])
        omega
      rw [List.getElem?_set_ne hne, h.hslot i hlt]
      congr 1
      exact (List.getElem?_append_left (by omega)).symm
    · have hieq : i = l.length := by omega
      subst hieq
      rw [List.getElem?_concat_length l x, hll, ← h.htail]
      have htl : b.tail < b.items.length := by
        rw [h.hlen, h.htail]
        exact Nat.mod_lt _ hcap
      rw [List.getElem?_set_self htl]

/-- When the buffer is full, `enqueue` first dequeues and then runs the
same write path as on the dequeued (now non-full) buffer. -/
lemma enqueue_full_eq {T : Type} {b : RingB T} (x : T) (hfull : b.is_full = true)
    {o : Option T} {b1 : RingB T} (hdq : b.dequeue = some (o, b1))
    (hnf : b1.is_full = false) :
    b.enqueue x = b1.enqueue x := by
  simp only [RingB.enqueue, hfull, if_true, hdq, hnf, Bool.false_eq_true, if_false]

/-- Discard-oldest step: `enqueue` on a full buffer drops the oldest
element and appends the new one. -/
lemma models_enqueue_full {T : Type} {b : RingB T} {y : T} {l : List T} (x : T)
    (h : b.Models (y :: l)) (hfull : b.size = b.capacity) :
    ∃ b2, b.enqueue x = some b2 ∧ b2.Models (l ++ [x]) ∧
      b2.capacity = b.capacity := by
  have hsz : 0 < b.size := by
    have := h.hl
    simp only [List.length_cons] at this
    omega
  have hcap : 0 < b.capacity := by omega
  have hdq := dequeue_cons h
  have h1 := models_dequeue h
  have hisfull : b.is_full = true := by
    simp [RingB.is_full]
    omega
  have hnf1 : RingB.is_full
      { b with items := b.items.set b.head none,
               head := (b.head + 1) % b.capacity,
               size := b.size - 1 } = false := by
    simp [RingB.is_full]
    omega
  have heq := enqueue_full_eq x hisfull hdq hnf1
  have henq := enqueue_not_full x h1.hlen
    (by
      show b.tail < b.capacity
      rw [h.htail]
      exact Nat.mod_lt _ hcap)
    (by
      show b.size - 1 ≠ b.capacity
      omega)
  refine ⟨_, by rw [heq, henq], models_enqueue x h1 (by show b.size - 1 < b.capacity; omega), rfl⟩

/-- Enqueueing a list into a buffer with enough free room appends it to the
represented sequence (no eviction occurs). -/
lemma models_enqueueAll {T : Type} (xs : List T) :
    ∀ (b : RingB T) (l : List T), b.Models l → l.length + xs.length ≤ b.capacity →
      ∃ b2, b.enqueueAll xs = some b2 ∧ b2.Models (l ++ xs) ∧
        b2.capacity = b.capacity := by
  induction xs with
  | nil =>
    intro b l h _
    exact ⟨b, rfl, by simpa using h, rfl⟩
  | cons x xs ih =>
    intro b l h hle
    have hll := h.hl
    have hnf : b.size < b.capacity := by
      simp only [List.length_cons] at hle
      omega
    have hcap : 0 < b.capacity := by omega
    have henq := enqueue_not_full x h.hlen
      (by rw [h.htail]; exact Nat.mod_lt _ hcap) (by omega)
    have hm1 := models_enqueue x h hnf
    obtain ⟨b2, h2, hm2, hcap2⟩ := ih _ (l ++ [x]) hm1
      (by
        show (l ++ [x]).length + xs.length ≤ b.capacity
        simp only [List.length_append, List.length_cons, List.length_nil] at hle ⊢
        omega)
    refine ⟨b2, ?_, ?_, ?_⟩
    · simp only [RingB.enqueueAll, henq, h2]
    · simpa using hm2
    · rw [hcap2]

/-- Enqueueing a list into a full buffer keeps only the most recent
`capacity` elements of the combined history. -/
lemma models_enqueueAll_full {T : Type} (ys : List T) :
    ∀ (b : RingB T) (l : List T), b.Models l → l.length = b.capacity →
      0 < b.capacity →
      ∃ b2, b.enqueueAll ys = some b2 ∧
        b2.Models ((l ++ ys).drop ys.length) ∧ b2.capacity = b.capacity := by
  induction ys with
  | nil =>
    intro b l h hf hc
    exact ⟨b, rfl, by simpa using h, rfl⟩
  | cons y ys ih =>
    intro b l h hf hc
    cases l with
    | nil =>
      simp only [List.length_nil] at hf
      omega
    | cons z l0 =>
      have hfull : b.size = b.capacity := by
        have := h.hl
        omega
      obtain ⟨b2, he, hm, hcap⟩ := models_enqueue_full y h hfull
      obtain ⟨b3, he3, hm3, hcap3⟩ := ih b2 (l0 ++ [y]) hm
        (by
          have := h.hl
          simp only [List.length_append, List.length_cons, List.length_nil] at this ⊢
          omega)
        (by omega)
      refine ⟨b3, ?_, ?_, ?_⟩
      · simp only [RingB.enqueueAll, he, he3]
      · have harr : l0 ++ [y] ++ ys = l0 ++ (y :: ys) := by simp
        have hdrop : ((z :: l0) ++ y :: ys).drop (y :: ys).length
            = (l0 ++ (y :: ys)).drop ys.length := by
          simp [List.drop_succ_cons]
        rw [hdrop, ← harr]
        exact hm3
      · rw [hcap3, hcap]

/-- Dequeuing as many times as there are live elements returns exactly the
represented sequence, oldest first, and empties the buffer. -/
lemma models_dequeueN {T : Type} (l : List T) :
    ∀ b : RingB T, b.Models l →
      ∃ b2, b.dequeueN l.length = some (l.map some, b2) ∧ b2.Models [] := by
  induction l with
  | nil =>
    intro b h
    exact ⟨b, rfl, h⟩
  | cons x l ih =>
    intro b h
    have hdq := dequeue_cons h
    obtain ⟨b2, hN, hm⟩ := ih _ (models_dequeue h)
    refine ⟨b2, ?_, hm⟩
    simp only [List.length_cons, RingB.dequeueN, hdq, hN, List.map_cons]

/-- Case analysis on any successful `dequeue`, on an arbitrary state:
either the buffer was empty and nothing changed, or the head slot was
read and cleared. -/
lemma dequeue_some_shape {T : Type} {b : RingB T} {o : Option T} {b1 : RingB T}
    (hs : b.dequeue = some (o, b1)) :
    (b.size = 0 ∧ o = none ∧ b1 = b) ∨
    (b.size ≠ 0 ∧ b.capacity ≠ 0 ∧ b.items[b.head]? = some o ∧
      b1 = { b with items := b.items.set b.head none,
                    head := (b.head + 1) % b.capacity,
                    size := b.size - 1 }) := by
  by_cases hemp : b.size = 0
  · left
    have he : b.is_empty = true := by simp [RingB.is_empty, hemp]
    simp only [RingB.dequeue, he, if_true, Option.some.injEq, Prod.mk.injEq] at hs
    exact ⟨hemp, hs.1.symm, hs.2.symm⟩
  · right
    have he : b.is_empty = false := by simp [RingB.is_empty, hemp]
    simp only [RingB.dequeue, he, Bool.false_eq_true, if_false] at hs
    cases hitem : b.items[b.head]? with
    | none =>
      simp only [hitem] at hs
      exact Option.noConfusion hs
    | some item =>
      simp only [hitem] at hs
      by_cases hcap : b.capacity = 0
      · simp only [hcap, if_true] at hs
        exact Option.noConfusion hs
      · simp only [hcap, if_false, Option.some.injEq, Prod.mk.injEq] at hs
        exact ⟨hemp, hcap, congrArg some hs.1, hs.2.symm⟩

/-- Case analysis on any successful `enqueue`, on an arbitrary state: the
write happens on `b` itself if not full, else on the dequeued buffer. -/
lemma enqueue_some_shape {T : Type} {b b2 : RingB T} {x : T}
    (hs : b.enqueue x = some b2) :
    ∃ c : RingB T,
      ((b.size ≠ b.capacity ∧ c = b) ∨
        (b.size = b.capacity ∧ ∃ o, b.dequeue = some (o, c))) ∧
      c.tail < c.items.length ∧ c.capacity ≠ 0 ∧
      b2 = { c with items := c.items.set c.tail (some x),
                    tail := (c.tail + 1) % c.capacity,
                    size := c.size + 1 } := by
  by_cases hfull : b.size = b.capacity
  · have hf : b.is_full = true := by simp [RingB.is_full, hfull]
    simp only [RingB.enqueue, hf, if_true] at hs
    cases hdq : b.dequeue with
    | none =>
      simp only [hdq] at hs
      exact Option.noConfusion hs
    | some p =>
      obtain ⟨o, c⟩ := p
      simp only [hdq] at hs
      by_cases ht : c.tail < c.items.length
      · simp only [ht, if_true] at hs
        by_cases hcap : c.capacity = 0
        · simp only [hcap, if_true] at hs
          exact Option.noConfusion hs
        · simp only [hcap, if_false, Option.some.injEq] at hs
          exact ⟨c, Or.inr ⟨hfull, o, rfl⟩, ht, hcap, hs.symm⟩
      · simp only [ht, if_false] at hs
        exact Option.noConfusion hs
  · have hf : b.is_full = false := by simp [RingB.is_full, hfull]
    simp only [RingB.enqueue, hf, Bool.false_eq_true, if_false] at hs
    by_cases ht : b.tail < b.items.length
    · simp only [ht, if_true] at hs
      by_cases hcap : b.capacity = 0
      · simp only [hcap, if_true] at hs
        exact Option.noConfusion hs
      · simp only [hcap, if_false, Option.some.injEq] at hs
        exact ⟨b, Or.inl ⟨hfull, rfl⟩, ht, hcap, hs.symm⟩
    · simp only [ht, if_false] at hs
      exact Option.noConfusion hs

/-- Case analysis on any successful `enqueue_or_overflow`, on an
arbitrary state. -/
lemma enqueue_or_overflow_some_shape {T : Type} {b : RingB T} {x : T}
    {r : Except OverflowError Unit} {b1 : RingB T}
    (hs : b.enqueue_or_overflow x = some (r, b1)) :
    (b.size = b.capacity ∧ r = Except.error ⟨⟩ ∧ b1 = b) ∨
    (b.size ≠ b.capacity ∧ b.tail < b.items.length ∧ b.capacity ≠ 0 ∧
      r = Except.ok () ∧
      b1 = { b with items := b.items.set b.tail (some x),
                    tail := (b.tail + 1) % b.capacity,
                    size := b.size + 1 }) := by
  by_cases hfull : b.size = b.capacity
  · have hf : b.is_full = true := by simp [RingB.is_full, hfull]
    simp only [RingB.enqueue_or_overflow, hf, if_true, Option.some.injEq,
      Prod.mk.injEq] at hs
    exact Or.inl ⟨hfull, hs.1.symm, hs.2.symm⟩
  · have hf : b.is_full = false := by simp [RingB.is_full, hfull]
    simp only [RingB.enqueue_or_overflow, hf, Bool.false_eq_true, if_false] at hs
    by_cases ht : b.tail < b.items.length
    · simp only [ht, if_true] at hs
      by_cases hcap : b.capacity = 0
      · simp only [hcap, if_true] at hs
        exact Option.noConfusion hs
      · simp only [hcap, if_false, Option.some.injEq, Prod.mk.injEq] at hs
        exact Or.inr ⟨hfull, ht, hcap, hs.1.symm, hs.2.symm⟩
    · simp only [ht, if_false] at hs
      exact Option.noConfusion hs

/-- The slot-write record (shared tail write of both enqueue paths)
preserves the weak size invariant when the buffer is not full. -/
lemma sizeInv_write {T : Type} {c : RingB T} (x : T) (h : c.SizeInv)
    (hlt : c.size < c.capacity) :
    RingB.SizeInv { c with items := c.items.set c.tail (some x),
                           tail := (c.tail + 1) % c.capacity,
                           size := c.size + 1 } := by
  obtain ⟨h1, h2⟩ := h
  constructor
  · show c.size + 1 ≤ c.capacity
    omega
  · show (c.items.set c.tail (some x)).length = c.capacity
    simpa using h2

/-- The head-clearing record of `dequeue` preserves the weak size invariant. -/
lemma sizeInv_clear {T : Type} {b : RingB T} (h : b.SizeInv) :
    RingB.SizeInv { b with items := b.items.set b.head none,
                           head := (b.head + 1) % b.capacity,
                           size := b.size - 1 } := by
  obtain ⟨h1, h2⟩ := h
  constructor
  · show b.size - 1 ≤ b.capacity
    omega
  · show (b.items.set b.head none).length = b.capacity
    simpa using h2

/-- Every single successful operation preserves the weak size invariant. -/
lemma sizeInv_applyOp {T : Type} {b b1 : RingB T} {op : Op T}
    (h : b.SizeInv) (hs : b.applyOp op = some b1) : b1.SizeInv := by
  cases op with
  | enq x =>
    simp only [RingB.applyOp] at hs
    obtain ⟨c, hc, hct, hccap, rfl⟩ := enqueue_some_shape hs
    have hcinv : c.SizeInv ∧ c.size < c.capacity := by
      rcases hc with ⟨hne, rfl⟩ | ⟨hfull, o, hdq⟩
      · exact ⟨h, by obtain ⟨h1, h2⟩ := h; omega⟩
      · rcases dequeue_some_shape hdq with ⟨hsz, _, hcb⟩ | ⟨hsz, hcap, _, hcb⟩
        · rw [hcb] at hccap
          exact absurd hfull (by omega)
        · rw [hcb]
          refine ⟨sizeInv_clear h, ?_⟩
          show b.size - 1 < b.capacity
          obtain ⟨h1, h2⟩ := h
          omega
    exact sizeInv_write x hcinv.1 hcinv.2
  | enqOrOverflow x =>
    simp only [RingB.applyOp, Option.map_eq_some'] at hs
    obtain ⟨⟨r, b2⟩, hs2, rfl⟩ := hs
    rcases enqueue_or_overflow_some_shape hs2 with ⟨_, _, rfl⟩ | ⟨hne, ht, hcap, _, rfl⟩
    · exact h
    · exact sizeInv_write x h (by obtain ⟨h1, h2⟩ := h; omega)
  | deq =>
    simp only [RingB.applyOp, Option.map_eq_some'] at hs
    obtain ⟨⟨o, b2⟩, hs2, rfl⟩ := hs
    rcases dequeue_some_shape hs2 with ⟨_, _, rfl⟩ | ⟨hsz, hcap, _, rfl⟩
    · exact h
    · exact sizeInv_clear h

/-- The weak size invariant holds after every successful operation
sequence. -/
lemma sizeInv_applyOps {T : Type} (ops : List (Op T)) :
    ∀ {b b1 : RingB T}, b.SizeInv → b.applyOps ops = some b1 → b1.SizeInv := by
  induction ops with
  | nil =>
    intro b b1 h hs
    obtain rfl := Option.some.inj hs
    exact h
  | cons op ops ih =>
    intro b b1 h hs
    cases hop : b.applyOp op with
    | none =>
      simp only [RingB.applyOps, hop] at hs
      exact Option.noConfusion hs
    | some c =>
      simp only [RingB.applyOps, hop] at hs
      exact ih (sizeInv_applyOp h hop) hs

/-- The slot-write record preserves full well-formedness when not full. -/
lemma wf_write {T : Type} {c : RingB T} (x : T) (h : c.Wf)
    (hlt : c.size < c.capacity) :
    RingB.Wf { c with items := c.items.set c.tail (some x),
                      tail := (c.tail + 1) % c.capacity,
                      size := c.size + 1 } := by
  obtain ⟨h1, h2, h3, h4⟩ := h
  refine ⟨?_, ?_, ?_, ?_⟩
  · show (c.items.set c.tail (some x)).length = c.capacity
    simpa using h1
  · exact h2
  · show (c.tail + 1) % c.capacity < c.capacity
    exact Nat.mod_lt _ (by omega)
  · show c.size + 1 ≤ c.capacity
    omega

/-- The head-clearing record of `dequeue` preserves full well-formedness. -/
lemma wf_clear {T : Type} {b : RingB T} (h : b.Wf) :
    RingB.Wf { b with items := b.items.set b.head none,
                      head := (b.head + 1) % b.capacity,
                      size := b.size - 1 } := by
  obtain ⟨h1, h2, h3, h4⟩ := h
  refine ⟨?_, ?_, ?_, ?_⟩
  · show (b.items.set b.head none).length = b.capacity
    simpa using h1
  · show (b.head + 1) % b.capacity < b.capacity
    exact Nat.mod_lt _ (by omega)
  · exact h3
  · show b.size - 1 ≤ b.capacity
    omega

/-- Every single successful operation preserves well-formedness. -/
lemma wf_applyOp {T : Type} {b b1 : RingB T} {op : Op T}
    (h : b.Wf) (hs : b.applyOp op = some b1) : b1.Wf := by
  cases op with
  | enq x =>
    simp only [RingB.applyOp] at hs
    obtain ⟨c, hc, hct, hccap, rfl⟩ := enqueue_some_shape hs
    have hcwf : c.Wf ∧ c.size < c.capacity := by
      rcases hc with ⟨hne, rfl⟩ | ⟨hfull, o, hdq⟩
      · exact ⟨h, by obtain ⟨h1, h2, h3, h4⟩ := h; omega⟩
      · rcases dequeue_some_shape hdq with ⟨hsz, _, hcb⟩ | ⟨hsz, hcap, _, hcb⟩
        · rw [hcb] at hccap
          exact absurd hfull (by omega)
        · rw [hcb]
          refine ⟨wf_clear h, ?_⟩
          show b.size - 1 < b.capacity
          obtain ⟨h1, h2, h3, h4⟩ := h
          omega
    exact wf_write x hcwf.1 hcwf.2
  | enqOrOverflow x =>
    simp only [RingB.applyOp, Option.map_eq_some'] at hs
    obtain ⟨⟨r, b2⟩, hs2, rfl⟩ := hs
    rcases enqueue_or_overflow_some_shape hs2 with ⟨_, _, rfl⟩ | ⟨hne, ht, hcap, _, rfl⟩
    · exact h
    · exact wf_write x h (by obtain ⟨h1, h2, h3, h4⟩ := h; omega)
  | deq =>
    simp only [RingB.applyOp, Option.map_eq_some'] at hs
    obtain ⟨⟨o, b2⟩, hs2, rfl⟩ := hs
    rcases dequeue_some_shape hs2 with ⟨_, _, rfl⟩ | ⟨hsz, hcap, _, rfl⟩
    · exact h
    · exact wf_clear h

/-- Well-formedness holds after every successful operation sequence. -/
lemma wf_applyOps {T : Type} (ops : List (Op T)) :
    ∀ {b b1 : RingB T}, b.Wf → b.applyOps ops = some b1 → b1.Wf := by
  induction ops with
  | nil =>
    intro b b1 h hs
    obtain rfl := Option.some.inj hs
    exact h
  | cons op ops ih =>
    intro b b1 h hs
    cases hop : b.applyOp op with
    | none =>
      simp only [RingB.applyOps, hop] at hs
      exact Option.noConfusion hs
    | some c =>
      simp only [RingB.applyOps, hop] at hs
      exact ih (wf_applyOp h hop) hs

/-- On the zero-capacity buffer, `enqueue` panics: the write
`self.items[self.tail]` indexes a zero-length store. -/
lemma zero_cap_enqueue {T : Type} (x : T) :
    (RingB.with_capacity T 0).enqueue x = none := rfl

/-- The zero-capacity buffer is a fixed point of every operation that
does not panic. -/
lemma zero_cap_applyOp {T : Type} {op : Op T} {b1 : RingB T}
    (hs : (RingB.with_capacity T 0).applyOp op = some b1) :
    b1 = RingB.with_capacity T 0 := by
  cases op with
  | enq x =>
    simp only [RingB.applyOp, zero_cap_enqueue] at hs
    exact Option.noConfusion hs
  | enqOrOverflow x =>
    have he : (RingB.with_capacity T 0).applyOp (Op.enqOrOverflow x)
        = some (RingB.with_capacity T 0) := rfl
    rw [he] at hs
    exact (Option.some.inj hs).symm
  | deq =>
    have he : (RingB.with_capacity T 0).applyOp (Op.deq : Op T)
        = some (RingB.with_capacity T 0) := rfl
    rw [he] at hs
    exact (Option.some.inj hs).symm

/-- Any successful operation sequence leaves the zero-capacity buffer in
its initial state. -/
lemma zero_cap_applyOps {T : Type} (ops : List (Op T)) :
    ∀ {b : RingB T}, (RingB.with_capacity T 0).applyOps ops = some b →
      b = RingB.with_capacity T 0 := by
  induction ops with
  | nil =>
    intro b hs
    exact (Option.some.inj hs).symm
  | cons op ops ih =>
    intro b hs
    cases hop : (RingB.with_capacity T 0).applyOp op with
    | none =>
      simp only [RingB.applyOps, hop] at hs
      exact Option.noConfusion hs
    | some c =>
      simp only [RingB.applyOps, hop] at hs
      have hc := zero_cap_applyOp hop
      subst hc
      exact ih hs

/-- Claim C1: FIFO order.  For every capacity `C > 0`, starting from the
empty buffer `with_capacity C` and enqueueing `N ≤ C` elements (so no
eviction occurs), performing `N` dequeues afterwards returns exactly the
enqueued elements in the exact order they were enqueued. -/
theorem fifo_order (T : Type) (C : Nat) (hC : 0 < C) (xs : List T)
    (hN : xs.length ≤ C) :
    ∃ b b2, (RingB.with_capacity T C).enqueueAll xs = some b ∧
      b.dequeueN xs.length = some (xs.map some, b2) := by
  obtain ⟨b, hb, hm, hcap⟩ := models_enqueueAll xs (RingB.with_capacity T C) []
    (models_with_capacity T C)
    (by simp only [List.length_nil, Nat.zero_add]; exact hN)
  obtain ⟨b2, h2, _⟩ := models_dequeueN xs b (by simpa using hm)
  exact ⟨b, b2, hb, h2⟩

/-- Witness for C1: capacity 3, enqueue [5, 7, 9], dequeue 3 times. -/
theorem fifo_order_witness :
    ∃ b b2, (RingB.with_capacity Nat 3).enqueueAll [5, 7, 9] = some b ∧
      b.dequeueN 3 = some ([some 5, some 7, some 9], b2) :=
  fifo_order Nat 3 (by decide) [5, 7, 9] (by decide)

/-- Claim C2: discard-oldest policy.  On a full buffer holding `l`
(`l.length = capacity > 0`): (a) `enqueue x` first removes the oldest
live element exactly as `dequeue` would (it runs the write on the
dequeued buffer), and (b) after enqueueing any prefix of `i ≤ K` further
elements the size is still `capacity`, and the `capacity` live elements
are the last `capacity` of the elements enqueued so far, in enqueue
order, as witnessed by what `dequeue` returns; the discarded elements
are gone from the buffer. -/
theorem discard_oldest (T : Type) (b : RingB T) (l ys : List T)
    (h : b.Models l) (hfull : l.length = b.capacity) (hC : 0 < b.capacity) :
    (∀ x : T, ∃ o b1, b.dequeue = some (o, b1) ∧ b.enqueue x = b1.enqueue x) ∧
    (∀ i, i ≤ ys.length →
      ∃ bi b2, b.enqueueAll (ys.take i) = some bi ∧ bi.size = b.capacity ∧
        bi.dequeueN b.capacity =
          some ((((l ++ ys.take i).drop i).map some), b2)) := by
  have hbfull : b.size = b.capacity := by
    have := h.hl
    omega
  constructor
  · intro x
    cases l with
    | nil =>
      simp only [List.length_nil] at hfull
      omega
    | cons z l0 =>
      have hdq := dequeue_cons h
      have hisfull : b.is_full = true := by
        simp [RingB.is_full]
        omega
      have hnf1 : RingB.is_full
          { b with items := b.items.set b.head none,
                   head := (b.head + 1) % b.capacity,
                   size := b.size - 1 } = false := by
        simp [RingB.is_full]
        omega
      exact ⟨some z, _, hdq, enqueue_full_eq x hisfull hdq hnf1⟩
  · intro i hi
    obtain ⟨bi, hei, hmi, hcapi⟩ :=
      models_enqueueAll_full (ys.take i) b l h hfull hC
    have htakelen : (ys.take i).length = i := by
      simp [List.length_take]
      omega
    rw [htakelen] at hmi
    have hdroplen : ((l ++ ys.take i).drop i).length = b.capacity := by
      simp only [List.length_drop, List.length_append, htakelen]
      omega
    obtain ⟨b2, hN, _⟩ := models_dequeueN _ bi hmi
    rw [hdroplen] at hN
    refine ⟨bi, b2, hei, ?_, hN⟩
    have := hmi.hl
    rw [hdroplen] at this
    omega

/-- Witness for C2: a full capacity-2 buffer holding [10, 20], then two
more enqueues [30, 40]; afterwards the two live elements are [30, 40]. -/
theorem discard_oldest_witness :
    ∃ bi b2, (⟨0, 0, 2, 2, [some 10, some 20]⟩ : RingB Nat).enqueueAll
        [30, 40] = some bi ∧ bi.size = 2 ∧
      bi.dequeueN 2 = some ([some 30, some 40], b2) := by
  have h := (discard_oldest Nat ⟨0, 0, 2, 2, [some 10, some 20]⟩
    [10, 20] [30, 40]
    { hlen := rfl
      hsize := by decide
      hl := rfl
      hhead := Or.inl (by decide)
      htail := by decide
      hslot := by
        intro i hi
        have hi2 : i < 2 := hi
        interval_cases i <;> rfl }
    rfl (by decide)).2 2 (by decide)
  simpa using h

/-- Claim C3: size bounds.  For every buffer produced by `new()` or
`with_capacity n` and every operation sequence that completes without a
panic, `size` stays between 0 and `capacity`.  (`size` is a `Nat`
mirroring `usize`, so it is non-negative by construction; `dequeue`
returns early when empty, so in Rust too the `size -= 1` never
underflows.) -/
theorem size_never_exceeds_capacity (T : Type) (b0 : RingB T)
    (h0 : b0 = RingB.new T ∨ ∃ n, b0 = RingB.with_capacity T n)
    (ops : List (Op T)) (b : RingB T) (hb : b0.applyOps ops = some b) :
    0 ≤ b.size ∧ b.size ≤ b.capacity := by
  have hinv : b0.SizeInv := by
    have hwc : ∀ n, (RingB.with_capacity T n).SizeInv := by
      intro n
      exact ⟨by simp [RingB.with_capacity], by simp [RingB.with_capacity]⟩
    rcases h0 with rfl | ⟨n, rfl⟩
    · exact hwc DEFAULT_BUFFER_CAPACITY
    · exact hwc n
  exact ⟨Nat.zero_le _, (sizeInv_applyOps ops hinv hb).1⟩

/-- Witness for C3: default-capacity buffer, one enqueue, one reject
attempt, one dequeue. -/
theorem size_never_exceeds_capacity_witness :
    0 ≤ (⟨1, 2, 1, 16, none :: some 6 :: List.replicate 14 none⟩ : RingB Nat).size ∧
      (⟨1, 2, 1, 16, none :: some 6 :: List.replicate 14 none⟩ : RingB Nat).size ≤
        (⟨1, 2, 1, 16, none :: some 6 :: List.replicate 14 none⟩ : RingB Nat).capacity :=
  size_never_exceeds_capacity Nat (RingB.new Nat) (Or.inl rfl)
    [Op.enq 5, Op.enqOrOverflow 6, Op.deq]
    ⟨1, 2, 1, 16, none :: some 6 :: List.replicate 14 none⟩ (by decide)

/-- Claim C4: reject-policy atomicity.  On a full buffer,
`enqueue_or_overflow` returns the overflow failure and the buffer
entirely unchanged: the result carries back `b` itself, so `size`,
`capacity`, `head`, `tail` and all slots are exactly as before. -/
theorem reject_on_full_is_noop (T : Type) (b : RingB T) (x : T)
    (h : b.is_full = true) :
    b.enqueue_or_overflow x = some (Except.error ⟨⟩, b) := by
  simp [RingB.enqueue_or_overflow, h]

/-- Witness for C4: a full capacity-1 buffer. -/
theorem reject_on_full_is_noop_witness :
    (⟨0, 0, 1, 1, [some 7]⟩ : RingB Nat).enqueue_or_overflow 9 =
      some (Except.error ⟨⟩, ⟨0, 0, 1, 1, [some 7]⟩) :=
  reject_on_full_is_noop Nat ⟨0, 0, 1, 1, [some 7]⟩ 9 (by decide)

/-- Claim C5: dequeue on an empty buffer returns the no-value outcome
`None` (not an error) and the buffer entirely unchanged: the result
carries back `b` itself, so `head`, `tail`, `size` and all slots are as
before the call. -/
theorem dequeue_empty_is_noop (T : Type) (b : RingB T) (h : b.size = 0) :
    b.dequeue = some (none, b) := by
  simp [RingB.dequeue, RingB.is_empty, h]

/-- Witness for C5: an empty capacity-4 buffer with nonzero indices. -/
theorem dequeue_empty_is_noop_witness :
    (⟨2, 2, 0, 4, [none, none, none, none]⟩ : RingB Nat).dequeue =
      some (none, ⟨2, 2, 0, 4, [none, none, none, none]⟩) :=
  dequeue_empty_is_noop Nat ⟨2, 2, 0, 4, [none, none, none, none]⟩ rfl

/-- Counterexample to claim C6 as stated: the zero-capacity buffer is
empty, yet `enqueue 42` on it panics (models the out-of-bounds write as
`none`), so no dequeue afterwards can return 42.  The claim quantifies
over every empty buffer and therefore fails at `with_capacity 0`. -/
theorem round_trip_fails_at_zero_capacity :
    (RingB.with_capacity Nat 0).is_empty = true ∧
      (RingB.with_capacity Nat 0).enqueue 42 = none := by
  constructor
  · decide
  · decide

/-- Claim C6 amended: on every well-formed empty buffer with positive
capacity, `enqueue x` followed immediately by `dequeue` returns `x`. -/
theorem round_trip_positive_capacity (T : Type) (b : RingB T) (x : T)
    (h : b.Models []) (hC : 0 < b.capacity) :
    ∃ b1 b2, b.enqueue x = some b1 ∧ b1.dequeue = some (some x, b2) := by
  have h0 : b.size = 0 := by
    have := h.hl
    simpa using this.symm
  have henq := enqueue_not_full x h.hlen
    (by rw [h.htail]; exact Nat.mod_lt _ hC) (by omega)
  have hm1 := models_enqueue x h (by omega)
  have hdq := dequeue_cons (by simpa using hm1)
  exact ⟨_, _, henq, hdq⟩

/-- Witness for amended C6: capacity 1, round-trip of the value 42. -/
theorem round_trip_positive_capacity_witness :
    ∃ b1 b2, (RingB.with_capacity Nat 1).enqueue 42 = some b1 ∧
      b1.dequeue = some (some 42, b2) :=
  round_trip_positive_capacity Nat (RingB.with_capacity Nat 1) 42
    (models_with_capacity Nat 1) (by decide)

/-- Counterexample to claim C7 as stated: `enqueue` on the zero-capacity
buffer does fail — the slot write `self.items[self.tail]` indexes the
empty backing store out of bounds (the panic is modelled by `none`),
contradicting that enqueue "does not index out of bounds or otherwise
fail" there. -/
theorem zero_capacity_enqueue_panics :
    (RingB.with_capacity Nat 0).enqueue 42 = none := by
  decide

/-- Claim C7 amended: a buffer constructed with `with_capacity 0` is
always both empty and full — any operation sequence that completes
leaves it in its initial state — and `enqueue` on it never writes into
the backing store: it panics (index out of bounds) before any write. -/
theorem zero_capacity_behavior (T : Type) (ops : List (Op T)) (b : RingB T)
    (hb : (RingB.with_capacity T 0).applyOps ops = some b) :
    b.is_empty = true ∧ b.is_full = true ∧ ∀ x : T, b.enqueue x = none := by
  have hfix := zero_cap_applyOps ops hb
  subst hfix
  exact ⟨rfl, rfl, fun x => rfl⟩

/-- Witness for amended C7: after a reject attempt and a dequeue the
zero-capacity buffer is still both empty and full. -/
theorem zero_capacity_behavior_witness :
    (RingB.with_capacity Nat 0).is_empty = true ∧
      (RingB.with_capacity Nat 0).is_full = true ∧
      ∀ x : Nat, (RingB.with_capacity Nat 0).enqueue x = none :=
  zero_capacity_behavior Nat [Op.enqOrOverflow 3, Op.deq]
    (RingB.with_capacity Nat 0) (by decide)

/-- Counterexample to claim C8 as stated: on a full buffer the failure
outcome of `enqueue_or_overflow` is byte-for-byte identical for two
distinct rejected items (1 and 2) — `OverflowError` carries no payload —
so the rejected item cannot be recovered from the failure outcome; it is
consumed, not returned to the caller. -/
theorem overflow_outcome_independent_of_item :
    (⟨0, 0, 1, 1, [some 0]⟩ : RingB Nat).enqueue_or_overflow 1 =
        (⟨0, 0, 1, 1, [some 0]⟩ : RingB Nat).enqueue_or_overflow 2 ∧
      (⟨0, 0, 1, 1, [some 0]⟩ : RingB Nat).enqueue_or_overflow 1 =
        some (Except.error ⟨⟩, ⟨0, 0, 1, 1, [some 0]⟩) :=
  ⟨rfl, rfl⟩

/-- Claim C8 amended: when `enqueue_or_overflow` fails on a full buffer,
the buffer is unchanged but the rejected item is consumed: the failure
value `OverflowError` has no payload and the whole outcome is
independent of the item, so the item is not recoverable from it. -/
theorem overflow_consumes_item (T : Type) (b : RingB T) (x y : T)
    (h : b.is_full = true) :
    b.enqueue_or_overflow x = some (Except.error ⟨⟩, b) ∧
      b.enqueue_or_overflow x = b.enqueue_or_overflow y := by
  constructor
  · simp [RingB.enqueue_or_overflow, h]
  · simp [RingB.enqueue_or_overflow, h]

/-- Witness for amended C8: full capacity-2 buffer, items 5 and 6. -/
theorem overflow_consumes_item_witness :
    (⟨1, 1, 2, 2, [some 3, some 4]⟩ : RingB Nat).enqueue_or_overflow 5 =
        some (Except.error ⟨⟩, ⟨1, 1, 2, 2, [some 3, some 4]⟩) ∧
      (⟨1, 1, 2, 2, [some 3, some 4]⟩ : RingB Nat).enqueue_or_overflow 5 =
        (⟨1, 1, 2, 2, [some 3, some 4]⟩ : RingB Nat).enqueue_or_overflow 6 :=
  overflow_consumes_item Nat ⟨1, 1, 2, 2, [some 3, some 4]⟩ 5 6 (by decide)

/-- Counterexample to claim C9 as stated: the claim asserts
`head < capacity` for every buffer produced by a constructor, including
immediately after construction; `with_capacity 0` has `head = 0` and
`capacity = 0`, so the bound already fails at construction. -/
theorem head_bound_fails_at_zero_capacity :
    ¬ ((RingB.with_capacity Nat 0).head < (RingB.with_capacity Nat 0).capacity) := by
  decide

/-- Claim C9 amended: for every buffer produced by `new()` or by
`with_capacity n` with `n > 0`, and after every operation sequence that
completes (including the empty one, i.e. immediately after
construction), `head < capacity` and `tail < capacity`. -/
theorem index_bounds_positive_capacity (T : Type) (b0 : RingB T)
    (h0 : b0 = RingB.new T ∨ ∃ n, 0 < n ∧ b0 = RingB.with_capacity T n)
    (ops : List (Op T)) (b : RingB T) (hb : b0.applyOps ops = some b) :
    b.head < b.capacity ∧ b.tail < b.capacity := by
  have hwf : b0.Wf := by
    have hwc : ∀ n, 0 < n → (RingB.with_capacity T n).Wf := by
      intro n hn
      refine ⟨by simp [RingB.with_capacity], ?_, ?_, ?_⟩ <;>
        simp [RingB.with_capacity]
      · exact hn
      · exact hn
    rcases h0 with rfl | ⟨n, hn, rfl⟩
    · exact hwc DEFAULT_BUFFER_CAPACITY (by decide)
    · exact hwc n hn
  have h := wf_applyOps ops hwf hb
  exact ⟨h.2.1, h.2.2.1⟩

/-- Witness for amended C9: capacity 2 buffer after enqueue, dequeue,
enqueue. -/
theorem index_bounds_positive_capacity_witness :
    (⟨1, 0, 1, 2, [none, some 9]⟩ : RingB Nat).head <
        (⟨1, 0, 1, 2, [none, some 9]⟩ : RingB Nat).capacity ∧
      (⟨1, 0, 1, 2, [none, some 9]⟩ : RingB Nat).tail <
        (⟨1, 0, 1, 2, [none, some 9]⟩ : RingB Nat).capacity :=
  index_bounds_positive_capacity Nat (RingB.with_capacity Nat 2)
    (Or.inr ⟨2, by decide, rfl⟩) [Op.enq 5, Op.deq, Op.enq 9]
    ⟨1, 0, 1, 2, [none, some 9]⟩ (by decide)

/-- Claim C10: frame property of the mutators on well-formed states.  On
a non-full buffer, `enqueue` and (successfully) `enqueue_or_overflow`
leave `head` and `capacity` unchanged and modify only the `tail` slot,
`tail` and `size`; on a non-empty buffer, `dequeue` leaves `tail` and
`capacity` unchanged, returns the `head` slot and modifies only that
slot, `head` and `size`. -/
theorem mutator_frame (T : Type) (b : RingB T) (x : T) (hwf : b.Wf) :
    (b.size < b.capacity →
      b.enqueue x = some
        { b with items := b.items.set b.tail (some x),
                 tail := (b.tail + 1) % b.capacity,
                 size := b.size + 1 } ∧
      b.enqueue_or_overflow x = some (Except.ok (),
        { b with items := b.items.set b.tail (some x),
                 tail := (b.tail + 1) % b.capacity,
                 size := b.size + 1 })) ∧
    (0 < b.size →
      b.dequeue = some ((b.items[b.head]?).getD none,
        { b with items := b.items.set b.head none,
                 head := (b.head + 1) % b.capacity,
                 size := b.size - 1 })) := by
  obtain ⟨h1, h2, h3, h4⟩ := hwf
  constructor
  · intro hnf
    exact ⟨enqueue_not_full x h1 h3 (by omega),
      enqueue_or_overflow_not_full x h1 h3 (by omega)⟩
  · intro hne
    have he : b.is_empty = false := by
      simp [RingB.is_empty]
      omega
    have hhl : b.head < b.items.length := by omega
    have hcap : ¬ b.capacity = 0 := by omega
    cases hitem : b.items[b.head]? with
    | none =>
      exact absurd hitem (by simp [List.getElem?_eq_getElem hhl])
    | some item =>
      simp only [RingB.dequeue, he, Bool.false_eq_true, if_false, hitem,
        hcap, if_false, Option.getD_some]

/-- Witness for C10: a well-formed capacity-2 buffer holding one element,
hit with both enqueue paths and a dequeue. -/
theorem mutator_frame_witness :
    ((⟨0, 1, 1, 2, [some 5, none]⟩ : RingB Nat).enqueue 9 =
        some ⟨0, 0, 2, 2, [some 5, some 9]⟩) ∧
      ((⟨0, 1, 1, 2, [some 5, none]⟩ : RingB Nat).enqueue_or_overflow 9 =
        some (Except.ok (), ⟨0, 0, 2, 2, [some 5, some 9]⟩)) ∧
      ((⟨0, 1, 1, 2, [some 5, none]⟩ : RingB Nat).dequeue =
        some (some 5, ⟨1, 1, 0, 2, [none, none]⟩)) := by
  have h := mutator_frame Nat ⟨0, 1, 1, 2, [some 5, none]⟩ 9
    ⟨rfl, by decide, by decide, by decide⟩
  refine ⟨((h.1 (by decide)).1).trans (by decide),
    ((h.1 (by decide)).2).trans ?_, (h.2 (by decide)).trans (by decide)⟩
  rfl

end RingbSpec
